import Mathlib

/-!
Verification development for the messaging gateway repository.

Shallow embeddings, translated from the Python sources:
  * `src/messaging/queue.py`   — per-session message queues (`MessageQueueManager`)
  * `src/messaging/limiter.py` — the global rate limiter worker
  * `src/cli/parser.py`        — the CLI event classifier (`CLIParser.parse_event`)
  * `src/messaging/handler.py` — message rendering (`_build_message`) and the
                                 handler's outbound send sites
together with a spec-modelled tag-segment extractor (its source,
`providers/utils/think_parser.py`, is not part of the sources given) and a
spec-modelled platform adapter.
-/

set_option maxRecDepth 10000

namespace FCC

/-! ## Queue manager model — `src/messaging/queue.py`

One `SQ` record models a `SessionQueue` (queue.py:28-36).  Messages are
modelled as naturals.  Besides the fields of the Python class we keep two
pieces of bookkeeping that in Python live in the asyncio runtime:

  * `inflight` — the number of live (non-cancelled, unfinished) asyncio tasks
    created by `enqueue`/`_process_next` for this session.  The design intends
    this to be 0 or 1.
  * `zombies`  — the number of tasks that were cancelled by `cancel_session`
    (queue.py:179-180) but whose `finally` block (queue.py:122-126) has not run
    yet.  In asyncio, `Task.cancel()` raises `CancelledError` at the task's
    current await point (inside `await processor`, queue.py:116); the `except`
    clause re-raises, and the `finally` clause still runs
    `await self._process_next(...)` before the task terminates.  A zombie step
    models that deferred `_process_next` call.
  * `started`  — the log of messages handed to a processor task, in order.

Lock atomicity: every locked region of the Python code together with the
`asyncio.create_task` call that immediately follows it runs without an
intervening suspension point, so each is a single step here.
-/

structure SQ where
  pending  : List Nat := []
  busy     : Bool := false
  inflight : Nat := 0
  zombies  : Nat := 0
  curMsg   : Option Nat := none
  started  : List Nat := []
  deriving DecidableEq, Repr

/-- The manager's `_queues` dict: an insertion-ordered association list. -/
def QSt := List (String × SQ)

def findSQ : List (String × SQ) → String → Option SQ
  | [], _ => none
  | (k, v) :: rest, sid => if k = sid then some v else findSQ rest sid

/-- `_get_or_create_queue` view: a missing key reads as a fresh `SessionQueue`. -/
def getSQ (st : QSt) (sid : String) : SQ :=
  (findSQ st sid).getD {}

def setSQ : List (String × SQ) → String → SQ → List (String × SQ)
  | [], sid, sq => [(sid, sq)]
  | (k, v) :: rest, sid, sq =>
    if k = sid then (sid, sq) :: rest else (k, v) :: setSQ rest sid sq

/-- `MessageQueueManager.enqueue` (queue.py:63-103): under the lock, a busy
session gets the message appended to its FIFO (returns `True`); an idle
session is marked busy, and right after the lock a processor task is created
for the message (returns `False`). -/
def enqueueQM (st : QSt) (sid : String) (m : Nat) : Bool × QSt :=
  let sq := getSQ st sid
  if sq.busy then
    (true, setSQ st sid { sq with pending := sq.pending ++ [m] })
  else
    (false, setSQ st sid
      { sq with busy := true, inflight := sq.inflight + 1,
                curMsg := some m, started := sq.started ++ [m] })

/-- `_process_next` (queue.py:128-157): empty FIFO marks the session free,
otherwise the head is dequeued and a new processor task is created for it. -/
def processNextQM (sq : SQ) : SQ :=
  match sq.pending with
  | [] => { sq with busy := false }
  | m :: rest =>
    { sq with pending := rest, inflight := sq.inflight + 1,
              curMsg := some m, started := sq.started ++ [m] }

/-- A processor task finishing normally: `_process_message`'s `finally`
(queue.py:122-126) clears `current_message` and runs `_process_next`. -/
def completeQM (st : QSt) (sid : String) : QSt :=
  let sq := getSQ st sid
  if sq.inflight = 0 then st
  else
    setSQ st sid (processNextQM { sq with inflight := sq.inflight - 1, curMsg := none })

/-- The deferred `finally`/`_process_next` of a task cancelled earlier by
`cancel_session`: same body as a normal completion, but the processing slot
it frees was already given up when the task was cancelled. -/
def zombieQM (st : QSt) (sid : String) : QSt :=
  let sq := getSQ st sid
  if sq.zombies = 0 then st
  else
    setSQ st sid (processNextQM { sq with zombies := sq.zombies - 1, curMsg := none })

/-- `cancel_session` (queue.py:165-196): cancels the running task if any
(`current_task and not current_task.done()` — true for a live task and also
for a not-yet-unwound cancelled one), collecting `current_message` when set,
then drains the FIFO into the returned list and clears `is_processing`. -/
def cancelSessionQM (st : QSt) (sid : String) : List Nat × QSt :=
  match findSQ st sid with
  | none => ([], st)
  | some sq =>
    let fromCur : List Nat :=
      if 0 < sq.inflight + sq.zombies then sq.curMsg.toList else []
    let sq1 : SQ :=
      if 0 < sq.inflight then
        { sq with pending := [], busy := false,
                  inflight := sq.inflight - 1, zombies := sq.zombies + 1 }
      else
        { sq with pending := [], busy := false }
    (fromCur ++ sq.pending, setSQ st sid sq1)

/-- The loop body of `cancel_all` (queue.py:198-210) over a snapshot of the
key list, concatenating the per-session cancelled lists. -/
def cancelFold : List String → QSt → List Nat × QSt
  | [], st => ([], st)
  | sid :: rest, st =>
    let r := cancelSessionQM st sid
    let r2 := cancelFold rest r.2
    (r.1 ++ r2.1, r2.2)

def keysQM (st : QSt) : List String := st.map Prod.fst

/-- `cancel_all` (queue.py:198-210). -/
def cancelAllQM (st : QSt) : List Nat × QSt :=
  cancelFold (keysQM st) st

/-- The interleaved steps of the manager under asyncio's cooperative
scheduler: an `enqueue`, a processor completion, a `cancel_session`, or the
deferred finaliser of a cancelled task. -/
inductive QAct where
  | enq (sid : String) (m : Nat)
  | comp (sid : String)
  | cancel (sid : String)
  | zfin (sid : String)
  deriving DecidableEq, Repr

def stepQM (st : QSt) : QAct → QSt
  | .enq sid m => (enqueueQM st sid m).2
  | .comp sid => completeQM st sid
  | .cancel sid => (cancelSessionQM st sid).2
  | .zfin sid => zombieQM st sid

def execQM (st : QSt) (acts : List QAct) : QSt := acts.foldl stepQM st

/-- Steps that do not involve cancellation. -/
def procAct : QAct → Bool
  | .enq _ _ => true
  | .comp _ => true
  | _ => false

/-- The messages enqueued for a given session by a trace, in order. -/
def enqueuedOf (acts : List QAct) (sid : String) : List Nat :=
  acts.filterMap fun a =>
    match a with
    | .enq s m => if s = sid then some m else none
    | _ => none

/-- The in-flight message that `cancel_session` reports: `current_message`
when the session's `current_task` is a live or still-unwinding task. -/
def curOf (st : QSt) (sid : String) : List Nat :=
  let sq := getSQ st sid
  if 0 < sq.inflight + sq.zombies then sq.curMsg.toList else []

/-- The lock-protected invariant that an idle session has an empty FIFO;
it holds in every state reachable without cancellation. -/
def GoodQ (st : QSt) : Prop :=
  ∀ sid, (getSQ st sid).busy = false → (getSQ st sid).pending = []

/-! ## Global rate limiter model — `src/messaging/limiter.py`

The worker loop `_worker` (limiter.py:64-119) is modelled as a step function
on a state carrying the admission queue, a discrete clock, the flood pause
deadline, the settled futures (first settlement wins, as `future.set_result`
is guarded by `future.done()`), and the log of task invocations in order.
A submitted `(func, future)` pair is an `LTask`: `id` identifies the future
and `script` lists the outcomes of successive invocations of `func`.
The leaky-bucket wait (`async with self.limiter`) only adds latency and is
not modelled as time; the flood pause is, since the claims are about it. -/

inductive LOutcome where
  | success (v : Nat)
  | failure (msg : String) (secondsAttr : Option Nat)
  deriving DecidableEq, Repr

structure LTask where
  id : Nat
  script : List LOutcome
  deriving DecidableEq, Repr

inductive LRes where
  | ok (v : Nat)
  | err (msg : String)
  deriving DecidableEq, Repr

structure LState where
  queue : List LTask := []
  now : Nat := 0
  pausedUntil : Nat := 0
  settled : List (Nat × LRes) := []
  startedLog : List Nat := []
  deriving DecidableEq, Repr

def startsSeq : List Char → List Char → Bool
  | [], _ => true
  | _ :: _, [] => false
  | p :: ps, h :: hs => p = h && startsSeq ps hs

/-- Python's `pat in hay` substring test. -/
def hasSub : List Char → List Char → Bool
  | [], pat => pat.isEmpty
  | h :: hs, pat => startsSeq pat (h :: hs) || hasSub hs pat

def lowerStr (s : String) : String := String.mk (s.data.map Char.toLower)

/-- `"flood" in error_msg or "wait" in error_msg` over the lowered error text
(limiter.py:89-90). -/
def isFloodMsg (msg : String) : Bool :=
  hasSub (lowerStr msg).data "flood".data || hasSub (lowerStr msg).data "wait".data

/-- One iteration of `_worker` (limiter.py:67-114): take the front task, wait
out a pending flood pause, invoke the task; on success settle its future with
the value; on a flood-control error pause everything for the signalled
duration (the `seconds` attribute when present, else 30, limiter.py:91-98)
and re-queue the task at the back; on any other error settle the future with
the exception.  An exhausted script acts as `func` returning `None ~ 0`. -/
def lstep (st : LState) : LState :=
  match st.queue with
  | [] => st
  | t :: rest =>
    let now1 := max st.now st.pausedUntil
    match t.script with
    | [] =>
      { st with queue := rest, now := now1,
                startedLog := st.startedLog ++ [t.id],
                settled := st.settled ++ [(t.id, LRes.ok 0)] }
    | o :: os =>
      match o with
      | .success v =>
        { st with queue := rest, now := now1,
                  startedLog := st.startedLog ++ [t.id],
                  settled := st.settled ++ [(t.id, LRes.ok v)] }
      | .failure msg hint =>
        if isFloodMsg msg then
          { st with queue := rest ++ [{ id := t.id, script := os }],
                    now := now1 + hint.getD 30,
                    pausedUntil := now1 + hint.getD 30,
                    startedLog := st.startedLog ++ [t.id] }
        else
          { st with queue := rest, now := now1,
                    startedLog := st.startedLog ++ [t.id],
                    settled := st.settled ++ [(t.id, LRes.err msg)] }

def lrun (st : LState) : Nat → LState
  | 0 => st
  | n + 1 => lrun (lstep st) n

/-- A future's final value: the first settlement recorded for its id. -/
def resultOf : List (Nat × LRes) → Nat → Option LRes
  | [], _ => none
  | (i, r) :: rest, j => if i = j then some r else resultOf rest j

/-! ## Message rendering — `ClaudeMessageHandler._build_message`
(handler.py:257-285) -/

def btChar : Char := Char.ofNat 96

/-- Python's `s.count("` ++ "`" ++ "``")`: non-overlapping occurrences of the
triple-backtick fence, scanning left to right. -/
def countF : List Char → Nat
  | a :: b :: c :: rest =>
    if a = btChar ∧ b = btChar ∧ c = btChar then countF rest + 1
    else countF (b :: c :: rest)
  | _ => 0

def countFences (s : String) : Nat := countF s.data

/-- Python slice `s[:n]` (in characters). -/
def strTake (s : String) (n : Nat) : String := String.mk (s.data.take n)

/-- Python slice `s[-n:]` for `n ≤ len(s)` (in characters). -/
def strTakeRight (s : String) (n : Nat) : String :=
  String.mk (s.data.drop (s.data.length - n))

/-- One loop iteration of `_build_message` (handler.py:268-277): the line a
part contributes, if any (an unrecognised part kind contributes nothing). -/
def renderPart (p : String × String) : Option String :=
  if p.1 = "thinking" then
    some ("💭 **Thinking:**\n```\n"
      ++ (strTake p.2 1200 ++ (if 1200 < p.2.length then "..." else ""))
      ++ "\n```")
  else if p.1 = "tool" then some ("🔧 **Tools:** `" ++ p.2 ++ "`")
  else if p.1 = "content" then some p.2
  else if p.1 = "error" then some ("⚠️ " ++ p.2)
  else none

/-- The `if status:` header lines (handler.py:264-266). -/
def statusLines : Option String → List String
  | some s => if s = "" then [] else [s, ""]
  | none => []

/-- `"\n".join(lines)` over the status header and the rendered parts. -/
def renderLines (parts : List (String × String)) (status : Option String) : String :=
  String.intercalate "\n" (statusLines status ++ parts.filterMap renderPart)

/-- `_build_message` (handler.py:257-285): render, truncate from the front to
the last 3795 characters behind a `"..."` marker when longer than 3800, and
close an unbalanced fence left by the truncation. -/
def buildMessage (parts : List (String × String)) (status : Option String) : String :=
  let result := renderLines parts status
  if 3800 < result.length then
    let t := "..." ++ strTakeRight result 3795
    if countFences t % 2 ≠ 0 then t ++ "\n```" else t
  else result

/-! ## Handler outbound sends — `src/messaging/handler.py` -/

structure MsgIn where
  text : String
  chatId : String
  userId : String
  messageId : String
  platform : String
  replyTo : Option String := none
  deriving DecidableEq, Repr

/-- An outbound platform call made by the handler. -/
inductive SendOp where
  | send (chatId : String) (text : String) (replyTo : Option String)
  | edit (chatId : String) (messageId : String) (text : String)
  deriving DecidableEq, Repr

/-- The handler's own status-emoji prefixes (handler.py:69-73). -/
def statusPrefixes : List String :=
  ["⏳", "💭", "🔧", "✅", "❌", "🚀", "🤖", "📋", "📊", "🔄"]

/-- The outbound platform calls `handle_message` performs for one incoming
message (handler.py:52-120): a reply for `/stop` (handler.py:300-307), a
reply for `/stats` (handler.py:309-315), nothing for a message carrying one
of the handler's own status prefixes, and the single initial status message
otherwise.  The texts are parameters: they depend on collaborator state. -/
def handleMessageSends (inc : MsgIn) (stopText statsText statusText : String) :
    List SendOp :=
  if inc.text = "/stop" then [.send inc.chatId stopText none]
  else if inc.text = "/stats" then [.send inc.chatId statsText none]
  else if statusPrefixes.any (fun p => p.isPrefixOf inc.text) then []
  else [.send inc.chatId statusText (some inc.messageId)]

/-- The outbound platform call of one `update_ui` flush
(handler.py:146-165): an edit of the status message with the rebuilt display
buffer, skipped when the rendered display is empty (`if display:`). -/
def updateUiOp (chatId statusMsgId : String) (parts : List (String × String))
    (status : Option String) : Option SendOp :=
  let display := buildMessage parts status
  if display = "" then none else some (.edit chatId statusMsgId display)

/-- Modelled from the spec: the concrete platform adapter (the repository's
`messaging/telegram.py`, imported by `src/api/app.py` but not among the given
sources) carries out the handler's `send_message`/`edit_message` calls.  Per
spec §2 ("Global Rate Limiter — serializes *all* outbound platform sends
through a single leaky-bucket admission queue") and §5 ("all outbound sends
are globally serialized by the rate limiter"), every platform call is
submitted as one task to the `GlobalRateLimiter` admission queue, in call
order, and the wire send happens only when the limiter worker runs that
task; nothing is sent outside the worker. -/
def submitOps (q : List LTask) (ops : List SendOp) : List LTask :=
  q ++ (List.range ops.length).map
    (fun i => { id := q.length + i, script := [LOutcome.success 0] })

/-! ## CLI event classifier — `CLIParser.parse_event` (src/cli/parser.py)

Events are JSON-like Python values.  `parse_event` can raise
(`AttributeError` from `t.get("input", ...).get(...)` when `input` is not a
dict, `TypeError` from `join` on a non-string element), so the embedding
returns `Except PErr (Option Chunk)`: `.ok none` is Python's `return None`. -/

inductive JVal where
  | null
  | bool (b : Bool)
  | num (n : Int)
  | str (s : String)
  | arr (elems : List JVal)
  | obj (fields : List (String × JVal))

/-- Python dict key lookup (dicts keep first binding; our objects never
repeat keys). -/
def getKey : List (String × JVal) → String → Option JVal
  | [], _ => none
  | (k, v) :: rest, key => if k = key then some v else getKey rest key

/-- `d.get(key, dflt)`. -/
def getKeyD (fields : List (String × JVal)) (key : String) (d : JVal) : JVal :=
  (getKey fields key).getD d

/-- Python truthiness of a JSON-like value. -/
def pyTruthy : JVal → Bool
  | .null => false
  | .bool b => b
  | .num n => decide (n ≠ 0)
  | .str s => decide (s ≠ "")
  | .arr xs => !xs.isEmpty
  | .obj fs => !fs.isEmpty

/-- `v == s` for a Python value against a string literal. -/
def jIsStr (v : JVal) (s : String) : Bool :=
  match v with
  | .str t => t == s
  | _ => false

/-- `event.get("code") == 0` (parser.py:104).  Python's `False == 0` is
true (`bool` is an `int` subtype and `False` is the integer zero), every
non-numeric value compares unequal. -/
def pyEqZero : JVal → Bool
  | .num n => decide (n = 0)
  | .bool b => !b
  | _ => false

/-- `str(e)` (parser.py:99).  The rendering of containers is abstracted (no
claim depends on it); scalars follow Python. -/
def pyStr : JVal → String
  | .null => "None"
  | .bool true => "True"
  | .bool false => "False"
  | .num n => toString n
  | .str s => s
  | .arr _ => "[...]"
  | .obj _ => "[dict]"

inductive PErr where
  | attributeError
  | typeError
  deriving DecidableEq, Repr

/-- The dicts `parse_event` returns, as a tagged union (`content` carries the
optional `thinking`/`text` keys of the combined chunk; a streaming text delta
is the same dict shape with only `text`). -/
inductive Chunk where
  | content (thinking : Option JVal) (text : Option JVal)
  | thinkingTxt (text : JVal)
  | toolStart (tools : List JVal)
  | subagentStart (tasks : List JVal)
  | errorMsg (message : JVal)
  | complete (status : String)

/-- The `for c in content` loop (parser.py:45-54): text parts, thinking
parts, and tool_use items, each in content order. -/
def collectContent : List JVal → List JVal × List JVal × List JVal
  | [] => ([], [], [])
  | c :: rest =>
    let acc := collectContent rest
    match c with
    | .obj cf =>
      if jIsStr (getKeyD cf "type" .null) "text" then
        (getKeyD cf "text" (.str "") :: acc.1, acc.2.1, acc.2.2)
      else if jIsStr (getKeyD cf "type" .null) "thinking" then
        (acc.1, getKeyD cf "thinking" (.str "") :: acc.2.1, acc.2.2)
      else if jIsStr (getKeyD cf "type" .null) "tool_use" then
        (acc.1, acc.2.1, JVal.obj cf :: acc.2.2)
      else acc
    | _ => acc

/-- `t.get("input", dflt).get("description", "Subagent")` (parser.py:59 and
parser.py:92): `AttributeError` when `input` is present but not a dict. -/
def taskDesc (tf : List (String × JVal)) : Except PErr JVal :=
  match getKey tf "input" with
  | none => .ok (.str "Subagent")
  | some (.obj inf) => .ok (getKeyD inf "description" (.str "Subagent"))
  | some _ => .error .attributeError

/-- The `subagents` list comprehension (parser.py:58-62).  A non-dict element
would raise `AttributeError` at `t.get("name")` already in the filter. -/
def subagentsOf : List JVal → Except PErr (List JVal)
  | [] => .ok []
  | .obj tf :: rest =>
    if jIsStr (getKeyD tf "name" .null) "Task" then do
      let d ← taskDesc tf
      let ds ← subagentsOf rest
      .ok (d :: ds)
    else subagentsOf rest
  | _ :: _ => .error .attributeError

/-- Collect the elements of a Python list for `join`, left to right;
`TypeError` at the first non-string (parser.py:70,72). -/
def asStrList : List JVal → Except PErr (List String)
  | [] => .ok []
  | .str s :: rest => do
    let ss ← asStrList rest
    .ok (s :: ss)
  | _ :: _ => .error .typeError

/-- `sep.join(xs)`. -/
def pyJoin (sep : String) (xs : List JVal) : Except PErr String := do
  let ss ← asStrList xs
  .ok (String.intercalate sep ss)

/-- Branch (1) of `parse_event` (parser.py:39-75) applied to the message
dict's fields: decompose the content items and produce a chunk, or fall
through (`.ok none`). -/
def messageBranch (mf : List (String × JVal)) : Except PErr (Option Chunk) :=
  match getKeyD mf "content" (.arr []) with
  | .arr content =>
    let acc := collectContent content
    if !acc.2.2.isEmpty then do
      let subs ← subagentsOf acc.2.2
      if !subs.isEmpty then pure (some (.subagentStart subs))
      else pure (some (.toolStart acc.2.2))
    else do
      let thF ← if !acc.2.1.isEmpty then do
          let s ← pyJoin "\n" acc.2.1
          pure (some (JVal.str s))
        else pure (none : Option JVal)
      let txF ← if !acc.1.isEmpty then do
          let s ← pyJoin "" acc.1
          pure (some (JVal.str s))
        else pure (none : Option JVal)
      if thF.isSome || txF.isSome then pure (some (.content thF txF))
      else pure none
  | _ => .ok none

/-- The `msg_obj` computation (parser.py:29-37): the assistant message, or
the message wrapped in a result (falling back to the event's own `message`
field when the wrapped one is falsy), else `None`. -/
def msgObjOf (ev : List (String × JVal)) : JVal :=
  let etype := getKeyD ev "type" .null
  if jIsStr etype "assistant" then getKeyD ev "message" .null
  else if jIsStr etype "result" then
    let m1 := match getKeyD ev "result" .null with
      | .obj rf => getKeyD rf "message" .null
      | _ => .null
    if pyTruthy m1 then m1 else getKeyD ev "message" .null
  else .null

/-- Branch (3) (parser.py:88-94) for a dict `content_block`. -/
def blockBranch (bf : List (String × JVal)) : Except PErr (Option Chunk) :=
  if jIsStr (getKeyD bf "type" .null) "tool_use" then
    if jIsStr (getKeyD bf "name" .null) "Task" then do
      let d ← taskDesc bf
      pure (some (.subagentStart [d]))
    else pure (some (.toolStart [JVal.obj bf]))
  else .ok none

/-- Branches (4)-(5) (parser.py:96-107). -/
def tail45 (ev : List (String × JVal)) (etype : JVal) : Except PErr (Option Chunk) :=
  if jIsStr etype "error" then
    let msg := match getKey ev "error" with
      | some (.obj ef) => getKeyD ef "message" .null
      | some v => .str (pyStr v)
      | none => .str (pyStr .null)
    .ok (some (.errorMsg msg))
  else if jIsStr etype "exit" then
    .ok (some (.complete
      (if pyEqZero (getKeyD ev "code" .null) then "success" else "failed")))
  else .ok none

/-- Branch (3) then (4)-(5) (parser.py:88-107). -/
def tail34 (ev : List (String × JVal)) (etype : JVal) : Except PErr (Option Chunk) :=
  if jIsStr etype "content_block_start" then
    match getKeyD ev "content_block" (.obj []) with
    | .obj bf => do
      let r ← blockBranch bf
      match r with
      | some c => pure (some c)
      | none => tail45 ev etype
    | _ => tail45 ev etype
  else tail45 ev etype

/-- Branch (2) then the rest (parser.py:77-107).  A non-dict delta returns
`None` outright (parser.py:80-81). -/
def tail2 (ev : List (String × JVal)) (etype : JVal) : Except PErr (Option Chunk) :=
  if jIsStr etype "content_block_delta" then
    match getKeyD ev "delta" (.obj []) with
    | .obj df =>
      if jIsStr (getKeyD df "type" .null) "text_delta" then
        .ok (some (.content none (some (getKeyD df "text" (.str "")))))
      else if jIsStr (getKeyD df "type" .null) "thinking_delta" then
        .ok (some (.thinkingTxt (getKeyD df "thinking" (.str ""))))
      else tail34 ev etype
    | _ => .ok none
  else tail34 ev etype

/-- `parse_event` over a dict event (parser.py:23-107); Python's early
returns become the fall-through chain `tail2`/`tail34`/`tail45`. -/
def parseObj (ev : List (String × JVal)) : Except PErr (Option Chunk) :=
  let r1 : Except PErr (Option Chunk) :=
    match msgObjOf ev with
    | .obj mf => if pyTruthy (.obj mf) then messageBranch mf else .ok none
    | _ => .ok none
  match r1 with
  | .error e => .error e
  | .ok (some c) => .ok (some c)
  | .ok none => tail2 ev (getKeyD ev "type" .null)

/-- `parse_event` (parser.py:13-107): a non-dict event yields `None`. -/
def parseEventE : JVal → Except PErr (Option Chunk)
  | .obj ev => parseObj ev
  | _ => .ok none

/-- An assistant turn carrying the given content items. -/
def mkAssistant (cs : List JVal) : JVal :=
  .obj [("type", .str "assistant"), ("message", .obj [("content", .arr cs)])]

/-- A result event wrapping a message with the given content items. -/
def mkResult (cs : List JVal) : JVal :=
  .obj [("type", .str "result"),
        ("result", .obj [("message", .obj [("content", .arr cs)])])]

/-! Claim-side (spec-worded) decomposition of a full message's content
items, for comparison with `parse_event`'s loop. -/

def thinkingValsOf (cs : List JVal) : List JVal :=
  cs.filterMap fun c =>
    match c with
    | .obj cf =>
      if jIsStr (getKeyD cf "type" .null) "thinking" then
        some (getKeyD cf "thinking" (.str ""))
      else none
    | _ => none

def textValsOf (cs : List JVal) : List JVal :=
  cs.filterMap fun c =>
    match c with
    | .obj cf =>
      if jIsStr (getKeyD cf "type" .null) "text" then
        some (getKeyD cf "text" (.str ""))
      else none
    | _ => none

def toolUsesOf (cs : List JVal) : List JVal :=
  cs.filterMap fun c =>
    match c with
    | .obj cf =>
      if jIsStr (getKeyD cf "type" .null) "tool_use" then some (.obj cf)
      else none
    | _ => none

/-- A tool-use item naming the sub-agent-launching tool (`Task`). -/
def isTaskTool (t : JVal) : Bool :=
  match t with
  | .obj tf => jIsStr (getKeyD tf "name" .null) "Task"
  | _ => false

/-- The sub-agent description of a well-shaped `Task` tool call. -/
def descOfTask (t : JVal) : JVal :=
  match t with
  | .obj tf =>
    match getKey tf "input" with
    | some (.obj inf) => getKeyD inf "description" (.str "Subagent")
    | _ => .str "Subagent"
  | _ => .str "Subagent"

def strOfJ : JVal → String
  | .str s => s
  | _ => ""

/-- The claim's rule for a full message-like event: if any tool-use item
names the sub-agent tool, `subagent_start` with the sub-agent descriptions;
otherwise `tool_start` with all tool-use items if any exist; otherwise a
combined content chunk carrying the thinking and/or text collections, only
when at least one is non-empty. -/
def messageSpec (cs : List JVal) : Option Chunk :=
  let tools := toolUsesOf cs
  let subs := (tools.filter isTaskTool).map descOfTask
  if !subs.isEmpty then some (.subagentStart subs)
  else if !tools.isEmpty then some (.toolStart tools)
  else
    let th := thinkingValsOf cs
    let tx := textValsOf cs
    if !th.isEmpty || !tx.isEmpty then
      some (.content
        (if !th.isEmpty then
          some (.str (String.intercalate "\n" (th.map strOfJ))) else none)
        (if !tx.isEmpty then
          some (.str (String.intercalate "" (tx.map strOfJ))) else none))
    else none

/-- Well-shaped content item: text/thinking values, when the item is of that
kind, are strings, and a `Task`-named tool call's `input`, when present, is
a dict. -/
def wfItem (c : JVal) : Bool :=
  match c with
  | .obj cf =>
    (if jIsStr (getKeyD cf "type" .null) "text" then
        match getKeyD cf "text" (.str "") with
        | .str _ => true
        | _ => false
      else true) &&
    (if jIsStr (getKeyD cf "type" .null) "thinking" then
        match getKeyD cf "thinking" (.str "") with
        | .str _ => true
        | _ => false
      else true) &&
    (if jIsStr (getKeyD cf "type" .null) "tool_use"
        && jIsStr (getKeyD cf "name" .null) "Task" then
        match getKey cf "input" with
        | none => true
        | some (.obj _) => true
        | some _ => false
      else true)
  | _ => true

/-- What `subagentsOf` needs of a tool-call element to not raise. -/
def taskInputOk (t : JVal) : Bool :=
  match t with
  | .obj tf =>
    if jIsStr (getKeyD tf "name" .null) "Task" then
      match getKey tf "input" with
      | none => true
      | some (.obj _) => true
      | some _ => false
    else true
  | _ => false

/-- The content items branch (1) would iterate over, if reached. -/
def msgItemsOf (ev : List (String × JVal)) : List JVal :=
  match msgObjOf ev with
  | .obj mf =>
    if pyTruthy (.obj mf) then
      match getKeyD mf "content" (.arr []) with
      | .arr cs => cs
      | _ => []
    else []
  | _ => []

/-- The `content_block` check branch (3) needs to not raise. -/
def blockOk (bf : List (String × JVal)) : Bool :=
  if jIsStr (getKeyD bf "type" .null) "tool_use"
      && jIsStr (getKeyD bf "name" .null) "Task" then
    match getKey bf "input" with
    | none => true
    | some (.obj _) => true
    | some _ => false
  else true

/-- Events on which `parse_event` cannot raise: every content item the
message branch would iterate is well-shaped, and a dict `content_block`
passes the `Task`-input check. -/
def eventSafe : JVal → Bool
  | .obj ev =>
    (msgItemsOf ev).all wfItem &&
    (match getKeyD ev "content_block" (.obj []) with
     | .obj bf => blockOk bf
     | _ => true)
  | _ => true

/-- The recognised `type` values of `parse_event`. -/
def recognizedType (v : JVal) : Bool :=
  jIsStr v "assistant" || jIsStr v "result" || jIsStr v "content_block_delta" ||
  jIsStr v "content_block_start" || jIsStr v "error" || jIsStr v "exit"

/-- The run did not raise. -/
def exOk {β : Type} : Except PErr β → Bool
  | .ok _ => true
  | .error _ => false

/-! ## Tag-segment extractor — spec-modelled

Modelled from the spec: the tag-segment extractor's source
(`providers/utils/think_parser.py`, exercised by `src/tests/test_parsers.py`)
is not among the given sources.  Spec §4.3: the parser scans for the
delimiter pair (`<think>` opening, `</think>` closing), partitions incoming
text into ordinary-text vs. thinking segments "emitted as soon as they can be
unambiguously determined", and "when a feed ends mid-delimiter … buffers the
undecided suffix internally and resolves it on the next feed"; state lives
entirely in the instance.  The instance state is the current mode plus the
buffered partial delimiter, and a feed processes its characters one at a
time, emitting each character that can no longer begin the pending delimiter
(so `feed "Hello <thi"` emits exactly the text `Hello ` and holds `<thi`,
as `test_think_tag_parser_streaming` requires). -/

structure TState where
  inThink : Bool := false
  part : List Char := []
  deriving DecidableEq, Repr

/-- The delimiter the current mode is waiting for. -/
def targetOf (inThink : Bool) : List Char :=
  if inThink then "</think>".data else "<think>".data

/-- Consume one character: complete the pending delimiter (toggling mode,
emitting nothing), extend the buffered partial delimiter, or flush the
buffer as content of the current mode — restarting on `<`, the only
character that can begin either delimiter. -/
def stepT (st : TState) (c : Char) : TState × List (Bool × Char) :=
  let t := targetOf st.inThink
  let p := st.part ++ [c]
  if p = t then ({ inThink := !st.inThink, part := [] }, [])
  else if p.isPrefixOf t then ({ st with part := p }, [])
  else if c = '<' then
    ({ st with part := [c] }, st.part.map (fun d => (st.inThink, d)))
  else
    ({ st with part := [] }, p.map (fun d => (st.inThink, d)))

/-- One `feed` call: the new state and the typed characters emitted, in
order (adjacent same-mode characters form one segment). -/
def feedT (st : TState) (cs : List Char) : TState × List (Bool × Char) :=
  cs.foldl (fun acc c =>
    let r := stepT acc.1 c
    (r.1, acc.2 ++ r.2)) (st, [])

/-- Consecutive `feed` calls, concatenating everything emitted. -/
def feedChunks (st : TState) (chunks : List (List Char)) : TState × List (Bool × Char) :=
  chunks.foldl (fun acc cs =>
    let r := feedT acc.1 cs
    (r.1, acc.2 ++ r.2)) (st, [])

/-- The buffered suffix is always an undecided proper prefix of the pending
delimiter. -/
def TInv (st : TState) : Prop :=
  st.part.isPrefixOf (targetOf st.inThink) = true ∧ st.part ≠ targetOf st.inThink

theorem findSQ_setSQ (st : List (String × SQ)) (sid sid' : String) (sq : SQ) :
    findSQ (setSQ st sid sq) sid' = if sid' = sid then some sq else findSQ st sid' := by
  induction st with
  | nil =>
    by_cases h : sid' = sid
    · simp [setSQ, findSQ, h]
    · simp [setSQ, findSQ, h, Ne.symm h]
  | cons kv rest ih =>
    obtain ⟨k, v⟩ := kv
    by_cases hk : k = sid
    · subst hk
      by_cases h : sid' = k
      · subst h; simp [setSQ, findSQ]
      · simp [setSQ, findSQ, h, Ne.symm h]
    · by_cases h2 : k = sid'
      · subst h2
        simp [setSQ, findSQ, hk, Ne.symm hk]
      · simp [setSQ, findSQ, hk, h2, ih]

theorem getSQ_setSQ_self (st : QSt) (sid : String) (sq : SQ) :
    getSQ (setSQ st sid sq) sid = sq := by
  simp [getSQ, findSQ_setSQ]

theorem getSQ_setSQ_ne (st : QSt) (sid sid' : String) (sq : SQ) (h : sid' ≠ sid) :
    getSQ (setSQ st sid sq) sid' = getSQ st sid' := by
  simp [getSQ, findSQ_setSQ, h]

theorem findSQ_not_mem (st : QSt) (sid : String) (h : sid ∉ keysQM st) :
    findSQ st sid = none := by
  induction st with
  | nil => rfl
  | cons kv rest ih =>
    obtain ⟨k, v⟩ := kv
    have hcons : keysQM ((k, v) :: rest) = k :: keysQM rest := rfl
    rw [hcons, List.mem_cons, not_or] at h
    simp only [findSQ, if_neg (fun hh : k = sid => h.1 hh.symm)]
    exact ih h.2

theorem fst_enq (st : QSt) (sid : String) (m : Nat) :
    (enqueueQM st sid m).1 = (getSQ st sid).busy := by
  unfold enqueueQM
  by_cases hb : (getSQ st sid).busy <;> simp [hb]

theorem getSQ_enq_self (st : QSt) (sid : String) (m : Nat) :
    getSQ (enqueueQM st sid m).2 sid =
      (if (getSQ st sid).busy then
        { getSQ st sid with pending := (getSQ st sid).pending ++ [m] }
       else
        { getSQ st sid with busy := true,
                            inflight := (getSQ st sid).inflight + 1,
                            curMsg := some m,
                            started := (getSQ st sid).started ++ [m] }) := by
  unfold enqueueQM
  by_cases hb : (getSQ st sid).busy <;> simp [hb, getSQ_setSQ_self]

theorem getSQ_enq_ne (st : QSt) (sid sid' : String) (m : Nat) (h : sid' ≠ sid) :
    getSQ (enqueueQM st sid m).2 sid' = getSQ st sid' := by
  unfold enqueueQM
  by_cases hb : (getSQ st sid).busy <;> simp [hb, getSQ_setSQ_ne _ _ _ _ h]

theorem getSQ_comp_self (st : QSt) (sid : String) :
    getSQ (completeQM st sid) sid =
      (if (getSQ st sid).inflight = 0 then getSQ st sid
       else processNextQM
         { getSQ st sid with inflight := (getSQ st sid).inflight - 1, curMsg := none }) := by
  unfold completeQM
  by_cases hi : (getSQ st sid).inflight = 0 <;> simp [hi, getSQ_setSQ_self]

theorem getSQ_comp_ne (st : QSt) (sid sid' : String) (h : sid' ≠ sid) :
    getSQ (completeQM st sid) sid' = getSQ st sid' := by
  unfold completeQM
  by_cases hi : (getSQ st sid).inflight = 0 <;> simp [hi, getSQ_setSQ_ne _ _ _ _ h]

theorem cancelSession_fst (st : QSt) (sid : String) :
    (cancelSessionQM st sid).1 = curOf st sid ++ (getSQ st sid).pending := by
  unfold cancelSessionQM curOf
  rcases hf : findSQ st sid with _ | sq
  · simp [getSQ, hf]
  · simp only [getSQ, hf, Option.getD_some]

theorem cancelSession_self_free (st : QSt) (sid : String) :
    (getSQ (cancelSessionQM st sid).2 sid).busy = false ∧
    (getSQ (cancelSessionQM st sid).2 sid).pending = [] := by
  unfold cancelSessionQM
  rcases hf : findSQ st sid with _ | sq
  · constructor <;> simp [getSQ, hf]
  · by_cases hi : 0 < sq.inflight <;> simp [hi, getSQ_setSQ_self]

theorem cancelSession_other (st : QSt) (x sid : String) (h : sid ≠ x) :
    getSQ (cancelSessionQM st x).2 sid = getSQ st sid := by
  unfold cancelSessionQM
  rcases hf : findSQ st x with _ | sq
  · simp
  · by_cases hi : 0 < sq.inflight <;> simp [hi, getSQ_setSQ_ne _ _ _ _ h]

theorem cancelFold_fst (sids : List String) :
    ∀ st : QSt, sids.Nodup →
      (cancelFold sids st).1
        = (sids.map (fun sid => curOf st sid ++ (getSQ st sid).pending)).flatten := by
  induction sids with
  | nil => intro st _; simp [cancelFold]
  | cons x rest ih =>
    intro st hnd
    obtain ⟨hx, hnd'⟩ := List.nodup_cons.mp hnd
    simp only [cancelFold, List.map_cons, List.flatten_cons]
    rw [cancelSession_fst, ih (cancelSessionQM st x).2 hnd']
    congr 1
    apply congrArg
    apply List.map_congr_left
    intro sid hsid
    have hne : sid ≠ x := fun hh => hx (hh ▸ hsid)
    rw [show curOf (cancelSessionQM st x).2 sid = curOf st sid by
          unfold curOf; rw [cancelSession_other st x sid hne],
        cancelSession_other st x sid hne]

theorem cancelFold_busy (sids : List String) :
    ∀ (st : QSt) (sid : String),
      (sid ∈ sids ∨ (getSQ st sid).busy = false) →
      (getSQ (cancelFold sids st).2 sid).busy = false := by
  induction sids with
  | nil =>
    intro st sid h
    rcases h with h | h
    · cases h
    · simpa [cancelFold] using h
  | cons x rest ih =>
    intro st sid h
    simp only [cancelFold]
    rcases h with h | h
    · rcases List.mem_cons.mp h with h | h
      · subst h
        exact ih _ sid (Or.inr (cancelSession_self_free st sid).1)
      · exact ih _ sid (Or.inl h)
    · by_cases hs : sid = x
      · subst hs
        exact ih _ sid (Or.inr (cancelSession_self_free st sid).1)
      · exact ih _ sid (Or.inr (by rw [cancelSession_other st x sid hs]; exact h))

theorem goodQ_init : GoodQ [] := fun _ _ => rfl

theorem goodQ_step (st : QSt) (a : QAct) (ha : procAct a = true) (hg : GoodQ st) :
    GoodQ (stepQM st a) := by
  cases a with
  | enq sid m =>
    intro sid' hb
    by_cases hs : sid' = sid
    · subst hs
      simp only [stepQM] at hb ⊢
      rw [getSQ_enq_self] at hb ⊢
      by_cases hbusy : (getSQ st sid').busy
      · simp [hbusy] at hb
      · simp [hbusy] at hb
    · simp only [stepQM] at hb ⊢
      rw [getSQ_enq_ne st sid sid' m hs] at hb ⊢
      exact hg sid' hb
  | comp sid =>
    intro sid' hb
    by_cases hs : sid' = sid
    · subst hs
      simp only [stepQM] at hb ⊢
      rw [getSQ_comp_self] at hb ⊢
      by_cases hi : (getSQ st sid').inflight = 0
      · simp only [if_pos hi] at hb ⊢
        exact hg sid' hb
      · simp only [if_neg hi] at hb ⊢
        rcases hp : (getSQ st sid').pending with _ | ⟨m, rest⟩
        · simp [processNextQM, hp] at hb ⊢
        · simp [processNextQM, hp] at hb ⊢
          have := hg sid' hb
          rw [hp] at this
          cases this
    · simp only [stepQM] at hb ⊢
      rw [getSQ_comp_ne st sid sid' hs] at hb ⊢
      exact hg sid' hb
  | cancel sid => simp [procAct] at ha
  | zfin sid => simp [procAct] at ha

theorem enqueuedOf_cons (a : QAct) (rest : List QAct) (sid : String) :
    enqueuedOf (a :: rest) sid = enqueuedOf [a] sid ++ enqueuedOf rest sid := by
  cases a with
  | enq s m => by_cases h : s = sid <;> simp [enqueuedOf, h]
  | comp s => simp [enqueuedOf]
  | cancel s => simp [enqueuedOf]
  | zfin s => simp [enqueuedOf]

theorem fifo_step (st : QSt) (a : QAct) (sid : String) (ha : procAct a = true)
    (hg : GoodQ st) :
    (getSQ (stepQM st a) sid).started ++ (getSQ (stepQM st a) sid).pending
      = ((getSQ st sid).started ++ (getSQ st sid).pending) ++ enqueuedOf [a] sid := by
  cases a with
  | enq sid' m =>
    by_cases hs : sid' = sid
    · subst hs
      simp only [stepQM]
      rw [getSQ_enq_self]
      by_cases hbusy : (getSQ st sid').busy
      · simp [hbusy, enqueuedOf, List.append_assoc]
      · have hp := hg sid' (by simpa using hbusy)
        simp [hbusy, enqueuedOf, hp]
    · simp only [stepQM]
      rw [getSQ_enq_ne st sid' sid m (fun hh => hs hh.symm)]
      simp [enqueuedOf, hs]
  | comp sid' =>
    by_cases hs : sid' = sid
    · subst hs
      simp only [stepQM]
      rw [getSQ_comp_self]
      by_cases hi : (getSQ st sid').inflight = 0
      · simp [hi, enqueuedOf]
      · simp only [if_neg hi]
        rcases hp : (getSQ st sid').pending with _ | ⟨m, rest⟩
        · simp [processNextQM, hp, enqueuedOf]
        · simp [processNextQM, hp, enqueuedOf, List.append_assoc]
    · simp only [stepQM]
      rw [getSQ_comp_ne st sid' sid (fun hh => hs hh.symm)]
      simp [enqueuedOf]
  | cancel s => simp [procAct] at ha
  | zfin s => simp [procAct] at ha

theorem fifo_exec (acts : List QAct) :
    ∀ st : QSt, (∀ a ∈ acts, procAct a = true) → GoodQ st →
    ∀ sid, (getSQ (execQM st acts) sid).started ++ (getSQ (execQM st acts) sid).pending
      = ((getSQ st sid).started ++ (getSQ st sid).pending) ++ enqueuedOf acts sid := by
  induction acts with
  | nil => intro st _ _ sid; simp [execQM, enqueuedOf]
  | cons a rest ih =>
    intro st hall hg sid
    have ha : procAct a = true := hall a (by simp)
    have hg1 := goodQ_step st a ha hg
    have h2 := ih (stepQM st a) (fun b hb => hall b (by simp [hb])) hg1 sid
    have h1 := fifo_step st a sid ha hg
    simp only [execQM, List.foldl_cons] at h2 ⊢
    rw [h2, h1]
    conv_rhs => rw [enqueuedOf_cons a rest sid]
    exact List.append_assoc _ _ _

/-- C1: the claim asserts that under every interleaving of enqueue, processor
completion, and cancellation steps, `is_processing` is true iff a processing
task owns the conversation and no two processors are ever in flight for the
same session.  The code violates this: `cancel_session` cancels the running
task and clears `is_processing` synchronously, but the cancelled task's
`finally` block (queue.py:122-126) still runs `_process_next` later.  In the
trace below that deferred `_process_next` runs after a new message has started
processing and a further one was queued; it dequeues the queued message and
creates a second concurrent processor task, so `inflight = 2` for session
"A" (and in the shorter prefix trace, `is_processing = false` while one task
is still running). -/
theorem c1_single_flight_invariant_violated :
    (getSQ (execQM [] [QAct.enq "A" 1, QAct.cancel "A", QAct.enq "A" 2,
        QAct.enq "A" 3, QAct.zfin "A"]) "A").inflight = 2 ∧
    (getSQ (execQM [] [QAct.enq "A" 1, QAct.cancel "A", QAct.enq "A" 2,
        QAct.zfin "A"]) "A").busy = false ∧
    (getSQ (execQM [] [QAct.enq "A" 1, QAct.cancel "A", QAct.enq "A" 2,
        QAct.zfin "A"]) "A").inflight = 1 := by decide

/-- C2: `enqueue` on an idle conversation marks it busy, hands the message to
a processor immediately and returns `queued = false`; on a busy conversation
it appends to the FIFO and returns `queued = true`; and along any interleaving
of enqueue and completion steps the log of messages handed to processors
followed by the still-pending FIFO is exactly the enqueue order, so queued
messages are processed after the current one, in FIFO order. -/
theorem c2_enqueue_semantics_and_fifo :
    (∀ (st : QSt) (sid : String) (m : Nat),
        (getSQ st sid).busy = false →
        (enqueueQM st sid m).1 = false ∧
        (getSQ (enqueueQM st sid m).2 sid).busy = true ∧
        (getSQ (enqueueQM st sid m).2 sid).started = (getSQ st sid).started ++ [m] ∧
        (getSQ (enqueueQM st sid m).2 sid).inflight = (getSQ st sid).inflight + 1) ∧
    (∀ (st : QSt) (sid : String) (m : Nat),
        (getSQ st sid).busy = true →
        (enqueueQM st sid m).1 = true ∧
        (getSQ (enqueueQM st sid m).2 sid).pending = (getSQ st sid).pending ++ [m] ∧
        (getSQ (enqueueQM st sid m).2 sid).started = (getSQ st sid).started) ∧
    (∀ (acts : List QAct) (sid : String),
        (∀ a ∈ acts, procAct a = true) →
        (getSQ (execQM [] acts) sid).started ++ (getSQ (execQM [] acts) sid).pending
          = enqueuedOf acts sid) := by
  refine ⟨?_, ?_, ?_⟩
  · intro st sid m hb
    refine ⟨by rw [fst_enq, hb], ?_, ?_, ?_⟩ <;> rw [getSQ_enq_self] <;> simp [hb]
  · intro st sid m hb
    refine ⟨by rw [fst_enq, hb], ?_, ?_⟩ <;> rw [getSQ_enq_self] <;> simp [hb]
  · intro acts sid hall
    have h := fifo_exec acts [] hall goodQ_init sid
    simpa [getSQ, findSQ] using h

theorem c2_witness :
    (enqueueQM [] "A" 5).1 = false ∧
    (getSQ (execQM [] [QAct.enq "A" 1, QAct.enq "A" 2, QAct.comp "A"]) "A").started ++
      (getSQ (execQM [] [QAct.enq "A" 1, QAct.enq "A" 2, QAct.comp "A"]) "A").pending
      = [1, 2] := by
  constructor
  · exact (c2_enqueue_semantics_and_fifo.1 [] "A" 5 (by decide)).1
  · have h := c2_enqueue_semantics_and_fifo.2.2
      [QAct.enq "A" 1, QAct.enq "A" 2, QAct.comp "A"] "A" (by decide)
    rw [h]; decide

/-- C5 counterexample: the claim says `cancel_session` "drains and returns
exactly the still-queued messages".  In a state where message 1 is in flight
and message 2 is queued, `cancel_session` returns `[1, 2]` — the in-flight
`current_message` followed by the queued messages (queue.py:179-182), not
just the still-queued `[2]`. -/
theorem c5_counterexample :
    (cancelSessionQM (execQM [] [QAct.enq "A" 1, QAct.enq "A" 2]) "A").1 ≠
      (getSQ (execQM [] [QAct.enq "A" 1, QAct.enq "A" 2]) "A").pending ∧
    (cancelSessionQM (execQM [] [QAct.enq "A" 1, QAct.enq "A" 2]) "A").1 = [1, 2] ∧
    (getSQ (execQM [] [QAct.enq "A" 1, QAct.enq "A" 2]) "A").pending = [2] := by
  decide

/-- C5 (amended): `cancel_session` returns the in-flight current message
(when a task owns the conversation and a current message is recorded)
followed by the still-queued messages, and marks the conversation free with
an empty FIFO; `cancel_all` applies this to every known conversation,
returning the concatenation of those per-conversation lists, and afterwards
no conversation is marked busy. -/
theorem c5_cancel_semantics :
    (∀ (st : QSt) (sid : String),
        (cancelSessionQM st sid).1 = curOf st sid ++ (getSQ st sid).pending ∧
        (getSQ (cancelSessionQM st sid).2 sid).busy = false ∧
        (getSQ (cancelSessionQM st sid).2 sid).pending = []) ∧
    (∀ st : QSt, (keysQM st).Nodup →
        (cancelAllQM st).1 =
          ((keysQM st).map (fun sid => curOf st sid ++ (getSQ st sid).pending)).flatten) ∧
    (∀ (st : QSt) (sid : String), (getSQ (cancelAllQM st).2 sid).busy = false) := by
  refine ⟨?_, ?_, ?_⟩
  · intro st sid
    exact ⟨cancelSession_fst st sid, (cancelSession_self_free st sid).1,
      (cancelSession_self_free st sid).2⟩
  · intro st hnd
    exact cancelFold_fst (keysQM st) st hnd
  · intro st sid
    by_cases h : sid ∈ keysQM st
    · exact cancelFold_busy (keysQM st) st sid (Or.inl h)
    · exact cancelFold_busy (keysQM st) st sid
        (Or.inr (by rw [getSQ, findSQ_not_mem st sid h]; rfl))

theorem c5_witness :
    (keysQM (execQM [] [QAct.enq "A" 1, QAct.enq "A" 2, QAct.enq "B" 9])).Nodup ∧
    (cancelAllQM (execQM [] [QAct.enq "A" 1, QAct.enq "A" 2, QAct.enq "B" 9])).1
      = [1, 2, 9] := by
  refine ⟨by decide, ?_⟩
  have h := c5_cancel_semantics.2.1
    (execQM [] [QAct.enq "A" 1, QAct.enq "A" 2, QAct.enq "B" 9]) (by decide)
  rw [h]; decide

theorem lrun_single_task (fs : List (String × Option Nat)) :
    ∀ (st : LState) (i v : Nat),
      st.queue = [⟨i, fs.map (fun p => LOutcome.failure p.1 p.2)
                        ++ [LOutcome.success v]⟩] →
      st.settled = [] →
      (∀ p ∈ fs, isFloodMsg p.1 = true) →
      resultOf (lrun st (fs.length + 1)).settled i = some (LRes.ok v) := by
  induction fs with
  | nil =>
    intro st i v hq hs _
    simp [lrun, lstep, hq, hs, resultOf]
  | cons p rest ih =>
    intro st i v hq hs hall
    have hp : isFloodMsg p.1 = true := hall p (by simp)
    have hlen : (p :: rest).length + 1 = (rest.length + 1) + 1 := by simp
    rw [hlen]
    show resultOf (lrun (lstep st) (rest.length + 1)).settled i = some (LRes.ok v)
    apply ih (lstep st) i v ?_ ?_ (fun q hq2 => hall q (by simp [hq2]))
    · simp [lstep, hq, hp]
    · simp [lstep, hq, hp, hs]

/-- C3: when the front task fails with a flood-control error (limiter.py:
87-109), dispatch is paused until the signalled duration (the explicit
wait-seconds hint, defaulting to 30 when absent) has elapsed, the task is
re-submitted at the back of the queue and its future is not settled; a task
whose attempts are any number of flood failures followed by a success settles
with the success value; and a non-flood failure settles the future with the
error as-is, without pausing and without re-queuing. -/
theorem c3_flood_pause_requeue_retry :
    (∀ (st : LState) (t : LTask) (rest : List LTask) (msg : String)
        (hint : Option Nat) (os : List LOutcome),
        st.queue = t :: rest →
        t.script = LOutcome.failure msg hint :: os →
        isFloodMsg msg = true →
        (lstep st).pausedUntil = max st.now st.pausedUntil + hint.getD 30 ∧
        (lstep st).now = max st.now st.pausedUntil + hint.getD 30 ∧
        (lstep st).queue = rest ++ [{ id := t.id, script := os }] ∧
        (lstep st).settled = st.settled) ∧
    (∀ (fs : List (String × Option Nat)) (st : LState) (i v : Nat),
        st.queue = [⟨i, fs.map (fun p => LOutcome.failure p.1 p.2)
                          ++ [LOutcome.success v]⟩] →
        st.settled = [] →
        (∀ p ∈ fs, isFloodMsg p.1 = true) →
        resultOf (lrun st (fs.length + 1)).settled i = some (LRes.ok v)) ∧
    (∀ (st : LState) (t : LTask) (rest : List LTask) (msg : String)
        (hint : Option Nat) (os : List LOutcome),
        st.queue = t :: rest →
        t.script = LOutcome.failure msg hint :: os →
        isFloodMsg msg = false →
        (lstep st).settled = st.settled ++ [(t.id, LRes.err msg)] ∧
        (lstep st).pausedUntil = st.pausedUntil ∧
        (lstep st).queue = rest) := by
  refine ⟨?_, ?_, ?_⟩
  · intro st t rest msg hint os hq hs hf
    refine ⟨?_, ?_, ?_, ?_⟩ <;> simp [lstep, hq, hs, hf]
  · exact fun fs st i v hq hs hall => lrun_single_task fs st i v hq hs hall
  · intro st t rest msg hint os hq hs hf
    refine ⟨?_, ?_, ?_⟩ <;> simp [lstep, hq, hs, hf]

theorem c3_witness :
    (lstep { queue := [⟨1, [LOutcome.failure "FloodWaitError: retry later" (some 5),
                            LOutcome.success 7]⟩] }).pausedUntil = 5 ∧
    resultOf (lrun { queue := [⟨1, [LOutcome.failure "FloodWaitError: retry later" (some 5),
                                    LOutcome.success 7]⟩] } 2).settled 1
      = some (LRes.ok 7) ∧
    (lstep { queue := [⟨2, [LOutcome.failure "boom" none]⟩] }).settled
      = [(2, LRes.err "boom")] := by
  refine ⟨?_, ?_, ?_⟩
  · have h := (c3_flood_pause_requeue_retry.1
      { queue := [⟨1, [LOutcome.failure "FloodWaitError: retry later" (some 5),
                       LOutcome.success 7]⟩] }
      ⟨1, [LOutcome.failure "FloodWaitError: retry later" (some 5), LOutcome.success 7]⟩
      [] "FloodWaitError: retry later" (some 5) [LOutcome.success 7]
      rfl rfl (by decide)).1
    rw [h]; decide
  · exact c3_flood_pause_requeue_retry.2.1
      [("FloodWaitError: retry later", some 5)]
      { queue := [⟨1, [LOutcome.failure "FloodWaitError: retry later" (some 5),
                       LOutcome.success 7]⟩] }
      1 7 rfl rfl (by decide)
  · have h := (c3_flood_pause_requeue_retry.2.2
      { queue := [⟨2, [LOutcome.failure "boom" none]⟩] }
      ⟨2, [LOutcome.failure "boom" none]⟩ [] "boom" none []
      rfl rfl (by decide)).1
    rw [h]; decide

theorem lrun_success_order (ts : List LTask) :
    ∀ st : LState, st.queue = ts → (∀ t ∈ ts, t.script = [LOutcome.success 0]) →
      (lrun st ts.length).startedLog = st.startedLog ++ ts.map LTask.id ∧
      (lrun st ts.length).queue = [] := by
  induction ts with
  | nil => intro st hq _; simpa [lrun] using hq
  | cons t rest ih =>
    intro st hq hall
    have hs : t.script = [LOutcome.success 0] := hall t (by simp)
    have h1 : lstep st
        = { st with queue := rest, now := max st.now st.pausedUntil,
                    startedLog := st.startedLog ++ [t.id],
                    settled := st.settled ++ [(t.id, LRes.ok 0)] } := by
      simp [lstep, hq, hs]
    obtain ⟨ha, hb⟩ := ih (lstep st) (by rw [h1]) (fun u hu => hall u (by simp [hu]))
    constructor
    · show (lrun (lstep st) rest.length).startedLog = _
      rw [ha, h1]
      simp
    · exact hb

/-- C4: taking all outbound platform calls of one handler turn — the initial
status message or command reply chosen by `handle_message` plus a UI-flush
edit from `update_ui` — and submitting each through the spec-modelled
limiter-backed platform adapter (`submitOps`), the limiter worker dispatches
exactly these tasks, in submission order, draining the queue: with no flood
requeues the visible send order is limiter-arrival order, and no call
reaches the wire outside the worker. -/
theorem c4_outbound_via_limiter (inc : MsgIn)
    (stopText statsText statusText cid mid : String)
    (parts : List (String × String)) (status : Option String) :
    (lrun { queue := submitOps [] (handleMessageSends inc stopText statsText statusText
              ++ (updateUiOp cid mid parts status).toList) }
          (handleMessageSends inc stopText statsText statusText
              ++ (updateUiOp cid mid parts status).toList).length).startedLog
      = List.range (handleMessageSends inc stopText statsText statusText
              ++ (updateUiOp cid mid parts status).toList).length ∧
    (lrun { queue := submitOps [] (handleMessageSends inc stopText statsText statusText
              ++ (updateUiOp cid mid parts status).toList) }
          (handleMessageSends inc stopText statsText statusText
              ++ (updateUiOp cid mid parts status).toList).length).queue = [] := by
  set ops := handleMessageSends inc stopText statsText statusText
      ++ (updateUiOp cid mid parts status).toList with hops
  have hlen : (submitOps [] ops).length = ops.length := by simp [submitOps]
  have hscripts : ∀ t ∈ submitOps [] ops, t.script = [LOutcome.success 0] := by
    intro t ht
    simp only [submitOps, List.nil_append, List.mem_map, List.mem_range] at ht
    obtain ⟨i, _, rfl⟩ := ht
    rfl
  obtain ⟨h1, h2⟩ := lrun_success_order (submitOps [] ops)
    { queue := submitOps [] ops } rfl hscripts
  rw [hlen] at h1 h2
  refine ⟨?_, h2⟩
  rw [h1]
  simp only [submitOps, List.nil_append, List.map_map]
  show List.map (fun i => 0 + i) (List.range ops.length) = List.range ops.length
  simp

theorem jIsStr_iff (v : JVal) (s : String) : jIsStr v s = true ↔ v = .str s := by
  cases v <;> simp [jIsStr]

theorem collectContent_eq (cs : List JVal) :
    collectContent cs = (textValsOf cs, thinkingValsOf cs, toolUsesOf cs) := by
  induction cs with
  | nil => rfl
  | cons c rest ih =>
    cases c
    case obj cf =>
      by_cases h1 : jIsStr (getKeyD cf "type" .null) "text"
      · have hx := (jIsStr_iff _ _).mp h1
        have h2 : jIsStr (getKeyD cf "type" .null) "thinking" = false := by rw [hx]; rfl
        have h3 : jIsStr (getKeyD cf "type" .null) "tool_use" = false := by rw [hx]; rfl
        simp [collectContent, textValsOf, thinkingValsOf, toolUsesOf,
              List.filterMap_cons, h1, h2, h3, ih]
      · by_cases h2 : jIsStr (getKeyD cf "type" .null) "thinking"
        · have hx := (jIsStr_iff _ _).mp h2
          have h3 : jIsStr (getKeyD cf "type" .null) "tool_use" = false := by rw [hx]; rfl
          simp [collectContent, textValsOf, thinkingValsOf, toolUsesOf,
                List.filterMap_cons, h1, h2, h3, ih]
        · by_cases h3 : jIsStr (getKeyD cf "type" .null) "tool_use"
          · simp [collectContent, textValsOf, thinkingValsOf, toolUsesOf,
                  List.filterMap_cons, h1, h2, h3, ih]
          · simp [collectContent, textValsOf, thinkingValsOf, toolUsesOf,
                  List.filterMap_cons, h1, h2, h3, ih]
    all_goals
      simp [collectContent, textValsOf, thinkingValsOf, toolUsesOf,
            List.filterMap_cons, ih]

theorem thinkingVals_str (cs : List JVal) (hwf : ∀ c ∈ cs, wfItem c = true) :
    ∀ v ∈ thinkingValsOf cs, ∃ s, v = .str s := by
  intro v hv
  simp only [thinkingValsOf, List.mem_filterMap] at hv
  obtain ⟨c, hc, hf⟩ := hv
  cases c
  case obj cf =>
    by_cases ht : jIsStr (getKeyD cf "type" .null) "thinking"
    · simp only [ht, if_true] at hf
      have hw := hwf (JVal.obj cf) hc
      simp only [wfItem, Bool.and_eq_true] at hw
      obtain ⟨⟨_, hthink⟩, _⟩ := hw
      simp only [ht, if_true] at hthink
      rcases hg : getKeyD cf "thinking" (.str "") with _ | b | n | s | xs | fs <;>
        rw [hg] at hthink hf <;> simp_all
      exact ⟨s, hf.symm⟩
    · simp [ht] at hf
  all_goals simp at hf

theorem textVals_str (cs : List JVal) (hwf : ∀ c ∈ cs, wfItem c = true) :
    ∀ v ∈ textValsOf cs, ∃ s, v = .str s := by
  intro v hv
  simp only [textValsOf, List.mem_filterMap] at hv
  obtain ⟨c, hc, hf⟩ := hv
  cases c
  case obj cf =>
    by_cases ht : jIsStr (getKeyD cf "type" .null) "text"
    · simp only [ht, if_true] at hf
      have hw := hwf (JVal.obj cf) hc
      simp only [wfItem, Bool.and_eq_true] at hw
      obtain ⟨⟨htxt, _⟩, _⟩ := hw
      simp only [ht, if_true] at htxt
      rcases hg : getKeyD cf "text" (.str "") with _ | b | n | s | xs | fs <;>
        rw [hg] at htxt hf <;> simp_all
      exact ⟨s, hf.symm⟩
    · simp [ht] at hf
  all_goals simp at hf

theorem toolUses_inputOk (cs : List JVal) (hwf : ∀ c ∈ cs, wfItem c = true) :
    ∀ t ∈ toolUsesOf cs, taskInputOk t = true := by
  intro t ht
  simp only [toolUsesOf, List.mem_filterMap] at ht
  obtain ⟨c, hc, hf⟩ := ht
  cases c
  case obj cf =>
    by_cases htu : jIsStr (getKeyD cf "type" .null) "tool_use"
    · simp only [htu, if_true, Option.some.injEq] at hf
      subst hf
      have hw := hwf (JVal.obj cf) hc
      simp only [wfItem, Bool.and_eq_true] at hw
      obtain ⟨_, htask⟩ := hw
      by_cases hname : jIsStr (getKeyD cf "name" .null) "Task"
      · simp only [htu, hname, Bool.and_self, if_true] at htask
        simp only [taskInputOk, hname, if_true]
        exact htask
      · simp [taskInputOk, hname]
    · simp [htu] at hf
  all_goals simp at hf

theorem exBind_ok {β γ : Type} (a : β) (f : β → Except PErr γ) :
    (Except.ok a >>= f : Except PErr γ) = f a := rfl

theorem exPure {β : Type} (a : β) : (pure a : Except PErr β) = Except.ok a := rfl

theorem subagentsOf_eq (ts : List JVal) (h : ∀ t ∈ ts, taskInputOk t = true) :
    subagentsOf ts = .ok ((ts.filter isTaskTool).map descOfTask) := by
  induction ts with
  | nil => rfl
  | cons t rest ih =>
    have ht := h t (by simp)
    have ihr := ih (fun u hu => h u (by simp [hu]))
    cases t
    case obj tf =>
      by_cases htask : jIsStr (getKeyD tf "name" .null) "Task"
      · have hdesc : taskDesc tf = .ok (descOfTask (.obj tf)) := by
          unfold taskDesc
          rcases hin : getKey tf "input" with _ | v
          · simp [descOfTask, hin]
          · rcases v with _ | b | n | s | xs | fs <;>
              simp_all [descOfTask, taskInputOk, htask, hin]
        simp [subagentsOf, htask, hdesc, ihr, List.filter_cons, isTaskTool,
              exBind_ok, exPure]
      · simp [subagentsOf, htask, ihr, List.filter_cons, isTaskTool]
    all_goals simp [taskInputOk] at ht

theorem asStrList_eq (xs : List JVal) (h : ∀ v ∈ xs, ∃ s, v = .str s) :
    asStrList xs = .ok (xs.map strOfJ) := by
  induction xs with
  | nil => rfl
  | cons v rest ih =>
    obtain ⟨s, rfl⟩ := h v (by simp)
    have ihr := ih (fun u hu => h u (by simp [hu]))
    simp [asStrList, strOfJ, ihr, exBind_ok, exPure]

theorem pyJoin_eq (sep : String) (xs : List JVal) (h : ∀ v ∈ xs, ∃ s, v = .str s) :
    pyJoin sep xs = .ok (String.intercalate sep (xs.map strOfJ)) := by
  simp [pyJoin, asStrList_eq xs h, exBind_ok, exPure]

theorem messageBranch_eq (mf : List (String × JVal)) (cs : List JVal)
    (hc : getKeyD mf "content" (.arr []) = .arr cs)
    (hwf : ∀ c ∈ cs, wfItem c = true) :
    messageBranch mf = .ok (messageSpec cs) := by
  unfold messageBranch messageSpec
  simp only [hc, collectContent_eq]
  by_cases htools : (toolUsesOf cs).isEmpty
  · have h0 : toolUsesOf cs = [] := by simpa using htools
    by_cases hth : (thinkingValsOf cs).isEmpty
    · by_cases htx : (textValsOf cs).isEmpty
      · simp [h0, hth, htx, exBind_ok, exPure]
      · simp [h0, hth, htx, exBind_ok, exPure,
              pyJoin_eq "" (textValsOf cs) (textVals_str cs hwf)]
    · by_cases htx : (textValsOf cs).isEmpty
      · simp [h0, hth, htx, exBind_ok, exPure,
              pyJoin_eq "\n" (thinkingValsOf cs) (thinkingVals_str cs hwf)]
      · simp [h0, hth, htx, exBind_ok, exPure,
              pyJoin_eq "\n" (thinkingValsOf cs) (thinkingVals_str cs hwf),
              pyJoin_eq "" (textValsOf cs) (textVals_str cs hwf)]
  · have hok := toolUses_inputOk cs hwf
    simp only [htools, subagentsOf_eq (toolUsesOf cs) hok, exBind_ok, exPure]
    by_cases hsubs : (((toolUsesOf cs).filter isTaskTool).map descOfTask).isEmpty
    · simp [hsubs, htools, exBind_ok, exPure]
    · simp [hsubs, exBind_ok, exPure]

/-- C6: a full message-like event (assistant turn, or result wrapping a
message) decomposes into thinking, text, and tool-use items: any tool-use
naming the sub-agent tool yields `subagent_start` with the sub-agent
descriptions; otherwise tool-use items yield `tool_start` with all of them;
otherwise a combined content chunk carries the thinking and/or text exactly
when at least one of the two collections is non-empty (with `parse_event`'s
defaults for missing fields).  Stated for well-shaped content items (string
text/thinking values, dict-or-absent input on `Task` calls), on which
`parse_event` cannot raise. -/
theorem c6_full_message_decomposition (cs : List JVal)
    (hwf : ∀ c ∈ cs, wfItem c = true) :
    parseEventE (mkAssistant cs) = .ok (messageSpec cs) ∧
    parseEventE (mkResult cs) = .ok (messageSpec cs) := by
  have key : messageBranch [("content", JVal.arr cs)] = .ok (messageSpec cs) :=
    messageBranch_eq _ cs rfl hwf
  constructor
  · have h1 : parseEventE (mkAssistant cs)
        = (match messageBranch [("content", JVal.arr cs)] with
           | .error e => .error e
           | .ok (some c) => .ok (some c)
           | .ok none => tail2 [("type", JVal.str "assistant"),
               ("message", JVal.obj [("content", JVal.arr cs)])]
               (JVal.str "assistant")) := rfl
    rw [h1, key]
    rcases messageSpec cs with _ | c
    · rfl
    · rfl
  · have h1 : parseEventE (mkResult cs)
        = (match messageBranch [("content", JVal.arr cs)] with
           | .error e => .error e
           | .ok (some c) => .ok (some c)
           | .ok none => tail2 [("type", JVal.str "result"),
               ("result", JVal.obj [("message",
                   JVal.obj [("content", JVal.arr cs)])])]
               (JVal.str "result")) := rfl
    rw [h1, key]
    rcases messageSpec cs with _ | c
    · rfl
    · rfl

theorem c6_witness :
    (∀ c ∈ [JVal.obj [("type", JVal.str "text"), ("text", JVal.str "hi")]],
        wfItem c = true) ∧
    parseEventE (mkAssistant
        [JVal.obj [("type", JVal.str "text"), ("text", JVal.str "hi")]])
      = .ok (some (.content none (some (JVal.str "hi")))) := by
  refine ⟨by decide, ?_⟩
  have h := (c6_full_message_decomposition
    [JVal.obj [("type", JVal.str "text"), ("text", JVal.str "hi")]] (by decide)).1
  rw [h]
  rfl

/-- C7: an exit event yields a `complete` chunk whose status is `success`
exactly when the event's exit code compares equal to zero under Python's
`==` (an absent code is `None`, which compares unequal, hence `failed`).
Note Python's `False` is the integer zero, so `pyEqZero` accepts it. -/
theorem c7_exit_status (v : JVal) :
    parseEventE (.obj [("type", .str "exit"), ("code", v)])
      = .ok (some (.complete (if pyEqZero v then "success" else "failed"))) ∧
    parseEventE (.obj [("type", .str "exit")]) = .ok (some (.complete "failed")) ∧
    (parseEventE (.obj [("type", .str "exit"), ("code", v)])
        = .ok (some (.complete "success")) ↔ pyEqZero v = true) := by
  have base : parseEventE (.obj [("type", .str "exit"), ("code", v)])
      = .ok (some (.complete (if pyEqZero v then "success" else "failed"))) := rfl
  refine ⟨base, rfl, ?_⟩
  rw [base]
  by_cases hz : pyEqZero v = true
  · simp [hz]
  · simp [hz]

/-- The embedded classifier on the spec §8 end-to-end example events: a
`text_delta` of `Hi` yields a content chunk carrying `Hi`, and a zero exit
yields `complete`/`success`. -/
theorem parseEvent_matches_spec_example :
    parseEventE (.obj [("type", .str "content_block_delta"),
        ("delta", .obj [("type", .str "text_delta"), ("text", .str "Hi")])])
      = .ok (some (.content none (some (.str "Hi")))) ∧
    parseEventE (.obj [("type", .str "exit"), ("code", .num 0)])
      = .ok (some (.complete "success")) := ⟨rfl, rfl⟩

/-- C10 counterexample: `parse_event` is not total.  On an assistant message
whose content holds a tool-use item named `Task` with a non-dict `input`,
the subagents comprehension evaluates `t.get("input", ...).get(...)` on a
string and raises `AttributeError` (parser.py:59). -/
theorem c10_counterexample :
    parseEventE (mkAssistant [JVal.obj [("type", JVal.str "tool_use"),
        ("name", JVal.str "Task"), ("input", JVal.str "boom")]])
      = .error .attributeError := rfl

theorem tail45_ok (ev : List (String × JVal)) (etype : JVal) :
    exOk (tail45 ev etype) = true := by
  unfold tail45
  split
  · rfl
  · split <;> rfl

theorem blockBranch_ok (bf : List (String × JVal)) (h : blockOk bf = true) :
    exOk (blockBranch bf) = true := by
  unfold blockBranch
  by_cases h1 : jIsStr (getKeyD bf "type" .null) "tool_use"
  · by_cases h2 : jIsStr (getKeyD bf "name" .null) "Task"
    · unfold blockOk at h
      simp only [h1, h2, Bool.and_self, if_true] at h
      rcases hin : getKey bf "input" with _ | v
      · simp [h1, h2, taskDesc, hin, exBind_ok, exPure, exOk]
      · rcases v with _ | b | n | s | xs | fs <;>
          simp_all [taskDesc, hin, exBind_ok, exPure, exOk, h1, h2]
    · simp [h1, h2, exOk, exPure]
  · simp [h1, exOk]

theorem tail34_ok (ev : List (String × JVal)) (etype : JVal)
    (hb : (match getKeyD ev "content_block" (.obj []) with
           | .obj bf => blockOk bf
           | _ => true) = true) :
    exOk (tail34 ev etype) = true := by
  unfold tail34
  by_cases h1 : jIsStr etype "content_block_start"
  · rcases hcb : getKeyD ev "content_block" (.obj []) with _ | b | n | s | xs | bf
    · simp [h1, hcb, tail45_ok]
    · simp [h1, hcb, tail45_ok]
    · simp [h1, hcb, tail45_ok]
    · simp [h1, hcb, tail45_ok]
    · simp [h1, hcb, tail45_ok]
    · rw [hcb] at hb
      have hbb := blockBranch_ok bf hb
      simp only [h1, if_true, hcb]
      rcases hr : blockBranch bf with e | r
      · rw [hr] at hbb; simp [exOk] at hbb
      · rcases r with _ | c
        · show exOk (tail45 ev etype) = true
          exact tail45_ok ev etype
        · rfl
  · simp [h1, tail45_ok]

theorem tail2_ok (ev : List (String × JVal)) (etype : JVal)
    (hb : (match getKeyD ev "content_block" (.obj []) with
           | .obj bf => blockOk bf
           | _ => true) = true) :
    exOk (tail2 ev etype) = true := by
  unfold tail2
  by_cases h1 : jIsStr etype "content_block_delta"
  · rcases hd : getKeyD ev "delta" (.obj []) with _ | b | n | s | xs | df
    · simp [h1, hd, exOk]
    · simp [h1, hd, exOk]
    · simp [h1, hd, exOk]
    · simp [h1, hd, exOk]
    · simp [h1, hd, exOk]
    · by_cases h2 : jIsStr (getKeyD df "type" .null) "text_delta"
      · simp [h1, hd, h2, exOk]
      · by_cases h3 : jIsStr (getKeyD df "type" .null) "thinking_delta"
        · simp [h1, hd, h2, h3, exOk]
        · simp [h1, hd, h2, h3, tail34_ok ev etype hb]
  · simp [h1, tail34_ok ev etype hb]

theorem parseObj_ok (ev : List (String × JVal))
    (hsafe : eventSafe (.obj ev) = true) : exOk (parseObj ev) = true := by
  unfold eventSafe at hsafe
  simp only [Bool.and_eq_true] at hsafe
  obtain ⟨hitems, hblock⟩ := hsafe
  unfold parseObj
  rcases hm : msgObjOf ev with _ | b | n | s | xs | mf
  · simp only [hm]; exact tail2_ok ev _ hblock
  · simp only [hm]; exact tail2_ok ev _ hblock
  · simp only [hm]; exact tail2_ok ev _ hblock
  · simp only [hm]; exact tail2_ok ev _ hblock
  · simp only [hm]; exact tail2_ok ev _ hblock
  · by_cases htr : pyTruthy (.obj mf) = true
    · have hmb : exOk (messageBranch mf) = true := by
        rcases hc : getKeyD mf "content" (.arr []) with _ | b | n | s | cs | fs
        · unfold messageBranch; rw [hc]; rfl
        · unfold messageBranch; rw [hc]; rfl
        · unfold messageBranch; rw [hc]; rfl
        · unfold messageBranch; rw [hc]; rfl
        · have hwf : ∀ c ∈ cs, wfItem c = true := by
            unfold msgItemsOf at hitems
            rw [hm] at hitems
            simp only [htr, if_true, hc] at hitems
            exact fun c hcc => List.all_eq_true.mp hitems c hcc
          rw [messageBranch_eq mf cs hc hwf]
          rfl
        · unfold messageBranch; rw [hc]; rfl
      simp only [hm, htr, if_true]
      rcases hr : messageBranch mf with e | r
      · rw [hr] at hmb; simp [exOk] at hmb
      · rcases r with _ | c
        · simp only [hr]
          exact tail2_ok ev _ hblock
        · simp [hr, exOk]
    · simp only [hm, htr, if_false]
      exact tail2_ok ev _ hblock

theorem parseObj_unrecognized (ev : List (String × JVal))
    (h : recognizedType (getKeyD ev "type" .null) = false) :
    parseObj ev = .ok none := by
  simp only [recognizedType, Bool.or_eq_false_iff] at h
  obtain ⟨⟨⟨⟨⟨h1, h2⟩, h3⟩, h4⟩, h5⟩, h6⟩ := h
  have hm : msgObjOf ev = .null := by unfold msgObjOf; simp [h1, h2]
  unfold parseObj
  simp only [hm]
  unfold tail2
  simp only [h3, if_false]
  unfold tail34
  simp only [h4, if_false]
  unfold tail45
  simp [h5, h6]

/-- C10 (amended): `parse_event` returns a chunk or `None` without raising
for every non-dict value and for every dict event in which each `Task`-named
tool-use item has a dict-or-absent `input` and each text/thinking content
value is a string; a dict event whose `type` matches no recognised rule
yields `None`.  (As stated, totality over all unexpected nested shapes is
false: see the counterexample, where a `Task` tool-use with a string `input`
raises `AttributeError`; a non-string text/thinking value likewise raises
`TypeError` in `join`.) -/
theorem c10_parse_event_totality :
    (∀ ev : List (String × JVal),
        eventSafe (.obj ev) = true → exOk (parseEventE (.obj ev)) = true) ∧
    (parseEventE .null = .ok none) ∧
    (∀ b, parseEventE (.bool b) = .ok none) ∧
    (∀ n, parseEventE (.num n) = .ok none) ∧
    (∀ s, parseEventE (.str s) = .ok none) ∧
    (∀ xs, parseEventE (.arr xs) = .ok none) ∧
    (∀ ev : List (String × JVal),
        recognizedType (getKeyD ev "type" .null) = false →
        parseEventE (.obj ev) = .ok none) := by
  refine ⟨?_, rfl, fun _ => rfl, fun _ => rfl, fun _ => rfl, fun _ => rfl, ?_⟩
  · exact fun ev h => parseObj_ok ev h
  · exact fun ev h => parseObj_unrecognized ev h

theorem c10_witness :
    eventSafe (JVal.obj [("type", JVal.str "exit")]) = true ∧
    exOk (parseEventE (JVal.obj [("type", JVal.str "exit")])) = true :=
  ⟨by decide, c10_parse_event_totality.1 [("type", JVal.str "exit")] (by decide)⟩

theorem countF_append_fence_aux (n : Nat) :
    ∀ l : List Char, l.length ≤ n →
      countF (l ++ ['\n', btChar, btChar, btChar]) = countF l + 1 := by
  induction n with
  | zero =>
    intro l hl
    have h0 : l = [] := List.eq_nil_of_length_eq_zero (Nat.le_zero.mp hl)
    subst h0
    decide
  | succ n ih =>
    intro l hl
    match l with
    | [] => decide
    | [a] =>
      have hne : ¬(a = btChar ∧ '\n' = btChar ∧ btChar = btChar) := by
        rintro ⟨_, h2, _⟩
        exact absurd h2 (by decide)
      simp only [List.cons_append, List.nil_append, countF, if_neg hne]
      simp [show ('\n' : Char) ≠ btChar by decide]
    | [a, b] =>
      have h1 : ¬(a = btChar ∧ b = btChar ∧ '\n' = btChar) := by
        rintro ⟨_, _, h⟩
        exact absurd h (by decide)
      have h2 : ¬(b = btChar ∧ '\n' = btChar ∧ btChar = btChar) := by
        rintro ⟨_, h, _⟩
        exact absurd h (by decide)
      simp only [List.cons_append, List.nil_append, countF, if_neg h1, if_neg h2]
      simp [show ('\n' : Char) ≠ btChar by decide]
    | a :: b :: c :: rest =>
      have hlen : rest.length ≤ n := by
        simp only [List.length_cons] at hl
        omega
      have hlen2 : (b :: c :: rest).length ≤ n := by
        simp only [List.length_cons] at hl ⊢
        omega
      by_cases h : a = btChar ∧ b = btChar ∧ c = btChar
      · have e1 : countF ((a :: b :: c :: rest) ++ ['\n', btChar, btChar, btChar])
            = countF (rest ++ ['\n', btChar, btChar, btChar]) + 1 := by
          simp only [List.cons_append, countF, if_pos h]
          rfl
        have e2 : countF (a :: b :: c :: rest) = countF rest + 1 := by
          simp only [countF, if_pos h]
        rw [e1, e2, ih rest hlen]
      · have e1 : countF ((a :: b :: c :: rest) ++ ['\n', btChar, btChar, btChar])
            = countF ((b :: c :: rest) ++ ['\n', btChar, btChar, btChar]) := by
          simp only [List.cons_append, countF, if_neg h]
          rfl
        have e2 : countF (a :: b :: c :: rest) = countF (b :: c :: rest) := by
          simp only [countF, if_neg h]
        rw [e1, e2, ih (b :: c :: rest) hlen2]

theorem countF_append_fence (l : List Char) :
    countF (l ++ ['\n', btChar, btChar, btChar]) = countF l + 1 :=
  countF_append_fence_aux l.length l (le_refl _)

theorem countFences_append_fence (s : String) :
    countFences (s ++ "\n```") = countFences s + 1 := by
  have hdata : (s ++ "\n```").data = s.data ++ ['\n', btChar, btChar, btChar] := rfl
  unfold countFences
  rw [hdata, countF_append_fence]

/-- C8: whenever the rendered message exceeds the fixed overall length of
3800 characters, `_build_message` keeps the tail — the result is `"..."`
followed by the last 3795 characters — appends a closing fence exactly when
that truncation leaves an odd number of fence markers, and the final message
always contains an even number of fence markers. -/
theorem c8_truncation_and_fences (parts : List (String × String))
    (status : Option String)
    (h : 3800 < (renderLines parts status).length) :
    buildMessage parts status =
      (if countFences ("..." ++ strTakeRight (renderLines parts status) 3795) % 2 ≠ 0
       then ("..." ++ strTakeRight (renderLines parts status) 3795) ++ "\n```"
       else "..." ++ strTakeRight (renderLines parts status) 3795) ∧
    countFences (buildMessage parts status) % 2 = 0 := by
  have hb : buildMessage parts status =
      (if countFences ("..." ++ strTakeRight (renderLines parts status) 3795) % 2 ≠ 0
       then ("..." ++ strTakeRight (renderLines parts status) 3795) ++ "\n```"
       else "..." ++ strTakeRight (renderLines parts status) 3795) := by
    unfold buildMessage
    rw [if_pos h]
  refine ⟨hb, ?_⟩
  rw [hb]
  by_cases hodd :
      countFences ("..." ++ strTakeRight (renderLines parts status) 3795) % 2 ≠ 0
  · rw [if_pos hodd, countFences_append_fence]
    omega
  · rw [if_neg hodd]
    omega

theorem c8_witness :
    3800 < (renderLines [("content", String.mk (List.replicate 3900 'a'))] none).length ∧
    countFences
      (buildMessage [("content", String.mk (List.replicate 3900 'a'))] none) % 2 = 0 := by
  have hone : ∀ s : String, renderLines [("content", s)] none = s := by
    intro s
    unfold renderLines statusLines renderPart
    simp only [List.filterMap_cons, List.nil_append,
          if_neg (show ¬ ("content" : String) = "thinking" by decide),
          if_neg (show ¬ ("content" : String) = "tool" by decide),
          if_pos (show ("content" : String) = "content" from rfl)]
    rfl
  have hlen : 3800 <
      (renderLines [("content", String.mk (List.replicate 3900 'a'))] none).length := by
    rw [hone]
    show 3800 < (List.replicate 3900 'a').length
    rw [List.length_replicate]
    omega
  exact ⟨hlen, (c8_truncation_and_fences [("content", String.mk (List.replicate 3900 'a'))]
    none hlen).2⟩

theorem feedT_out_acc (cs : List Char) :
    ∀ (st : TState) (pre : List (Bool × Char)),
      cs.foldl (fun acc c =>
          let r := stepT acc.1 c
          (r.1, acc.2 ++ r.2)) (st, pre)
        = ((feedT st cs).1, pre ++ (feedT st cs).2) := by
  induction cs with
  | nil => intro st pre; simp [feedT]
  | cons c rest ih =>
    intro st pre
    have h2' : feedT st (c :: rest)
        = ((feedT (stepT st c).1 rest).1,
           (stepT st c).2 ++ (feedT (stepT st c).1 rest).2) :=
      ih (stepT st c).1 (stepT st c).2
    have h1' : (List.foldl (fun acc c =>
          let r := stepT acc.1 c
          (r.1, acc.2 ++ r.2)) (st, pre) (c :: rest))
        = ((feedT (stepT st c).1 rest).1,
           (pre ++ (stepT st c).2) ++ (feedT (stepT st c).1 rest).2) :=
      ih (stepT st c).1 (pre ++ (stepT st c).2)
    rw [h1', h2']
    simp [List.append_assoc]

theorem feedT_cons (st : TState) (c : Char) (rest : List Char) :
    feedT st (c :: rest)
      = ((feedT (stepT st c).1 rest).1,
         (stepT st c).2 ++ (feedT (stepT st c).1 rest).2) :=
  feedT_out_acc rest (stepT st c).1 (stepT st c).2

theorem feedT_append (st : TState) (a b : List Char) :
    feedT st (a ++ b)
      = ((feedT (feedT st a).1 b).1,
         (feedT st a).2 ++ (feedT (feedT st a).1 b).2) := by
  induction a generalizing st with
  | nil => simp [feedT]
  | cons c restA ih =>
    rw [List.cons_append, feedT_cons, ih, feedT_cons]
    simp [List.append_assoc]

theorem feedChunks_out_acc (chunks : List (List Char)) :
    ∀ (st : TState) (pre : List (Bool × Char)),
      chunks.foldl (fun acc cs =>
          let r := feedT acc.1 cs
          (r.1, acc.2 ++ r.2)) (st, pre)
        = ((feedChunks st chunks).1, pre ++ (feedChunks st chunks).2) := by
  induction chunks with
  | nil => intro st pre; simp [feedChunks]
  | cons a rest ih =>
    intro st pre
    have h2' : feedChunks st (a :: rest)
        = ((feedChunks (feedT st a).1 rest).1,
           (feedT st a).2 ++ (feedChunks (feedT st a).1 rest).2) :=
      ih (feedT st a).1 (feedT st a).2
    have h1' : (List.foldl (fun acc cs =>
          let r := feedT acc.1 cs
          (r.1, acc.2 ++ r.2)) (st, pre) (a :: rest))
        = ((feedChunks (feedT st a).1 rest).1,
           (pre ++ (feedT st a).2) ++ (feedChunks (feedT st a).1 rest).2) :=
      ih (feedT st a).1 (pre ++ (feedT st a).2)
    rw [h1', h2']
    simp [List.append_assoc]

theorem feedChunks_cons (st : TState) (a : List Char) (rest : List (List Char)) :
    feedChunks st (a :: rest)
      = ((feedChunks (feedT st a).1 rest).1,
         (feedT st a).2 ++ (feedChunks (feedT st a).1 rest).2) :=
  feedChunks_out_acc rest (feedT st a).1 (feedT st a).2

theorem stepT_inv (st : TState) (c : Char) (h : TInv st) : TInv (stepT st c).1 := by
  obtain ⟨hpre, hne⟩ := h
  unfold stepT
  by_cases hp : st.part ++ [c] = targetOf st.inThink
  · rw [if_pos hp]
    constructor
    · cases st.inThink <;> decide
    · cases st.inThink <;> decide
  · rw [if_neg hp]
    by_cases hpre2 : (st.part ++ [c]).isPrefixOf (targetOf st.inThink) = true
    · rw [if_pos hpre2]
      exact ⟨hpre2, hp⟩
    · rw [if_neg hpre2]
      by_cases hc : c = '<'
      · subst hc
        rw [if_pos rfl]
        constructor
        · show (['<'] : List Char).isPrefixOf (targetOf st.inThink) = true
          cases st.inThink <;> decide
        · show (['<'] : List Char) ≠ targetOf st.inThink
          cases st.inThink <;> decide
      · rw [if_neg hc]
        constructor
        · show ([] : List Char).isPrefixOf (targetOf st.inThink) = true
          cases st.inThink <;> decide
        · show ([] : List Char) ≠ targetOf st.inThink
          cases st.inThink <;> decide

theorem feedT_inv (cs : List Char) :
    ∀ st : TState, TInv st → TInv (feedT st cs).1 := by
  induction cs with
  | nil => intro st h; simpa [feedT] using h
  | cons c rest ih =>
    intro st h
    rw [feedT_cons]
    exact ih (stepT st c).1 (stepT_inv st c h)

theorem feedChunks_inv (chunks : List (List Char)) :
    ∀ st : TState, TInv st → TInv (feedChunks st chunks).1 := by
  induction chunks with
  | nil => intro st h; simpa [feedChunks] using h
  | cons a rest ih =>
    intro st h
    rw [feedChunks_cons]
    exact ih (feedT st a).1 (feedT_inv a st h)

/-- The spec-modelled extractor reproduces `test_think_tag_parser_basic`
(src/tests/test_parsers.py:6-16): one feed partitions into the segments
`Hello ` (text), `reasoning` (thinking), ` world` (text). -/
theorem thinkParser_matches_basic_test :
    (feedT {} "Hello <think>reasoning</think> world".data).2
      = ("Hello ".data.map (fun c => ((false : Bool), c))
         ++ "reasoning".data.map (fun c => ((true : Bool), c))
         ++ " world".data.map (fun c => ((false : Bool), c))) ∧
    (feedT {} "Hello <think>reasoning</think> world".data).1 = {} := by decide

/-- The spec-modelled extractor reproduces
`test_think_tag_parser_streaming` (src/tests/test_parsers.py:19-31): a feed
ending in the partial tag `<thi` emits only the text `Hello ` and buffers
the undecided suffix; the next feed resolves it and emits the thinking
segment `reasoning`. -/
theorem thinkParser_matches_streaming_test :
    feedT {} "Hello <thi".data
      = ({ inThink := false, part := "<thi".data },
         "Hello ".data.map (fun c => ((false : Bool), c))) ∧
    (feedT { inThink := false, part := "<thi".data } "nk>reasoning</think>".data).2
      = "reasoning".data.map (fun c => ((true : Bool), c)) := by decide

/-- C9: for every split of a text into consecutive feed calls, the parser
reaches the same state and emits the same typed character sequence as a
single feed of the whole text — so the concatenation of emitted segment
contents and the text/thinking boundaries are identical — and after any
sequence of feeds from a fresh parser the buffered suffix is an undecided
proper prefix of the pending delimiter, resolved by later feeds. -/
theorem c9_split_invariance :
    (∀ (st : TState) (chunks : List (List Char)),
        feedChunks st chunks = feedT st chunks.flatten) ∧
    (∀ chunks : List (List Char),
        ((feedChunks {} chunks).1.part).isPrefixOf
            (targetOf (feedChunks {} chunks).1.inThink) = true ∧
        (feedChunks {} chunks).1.part ≠ targetOf (feedChunks {} chunks).1.inThink) := by
  constructor
  · intro st chunks
    induction chunks generalizing st with
    | nil => simp [feedChunks, feedT]
    | cons a rest ih =>
      rw [feedChunks_cons, ih, List.flatten_cons, feedT_append]
  · intro chunks
    exact feedChunks_inv chunks {} ⟨by decide, by decide⟩

end FCC
